import Mathlib

/-!
# memReordering: the generator and the coordinator loop of `ordering.cpp`

A shallow embedding of `src/ordering.cpp`.

* `unsigned int` words are natural numbers; `u32` is the reduction modulo `2 ^ 32`
  that the machine applies wherever a result can leave the 32-bit range.
* `int` values are integers.  An access to `m_buffer` outside `[0, MT_LEN)` and a
  signed overflow are undefined behaviour in C++: the functions below return `none`
  there.
* `MersenneTwister::integer` becomes a function from the generator state to the
  returned word and the next state; the coordinator loop of `main` becomes a
  function of the trial outcomes `(r1, r2)` that the workers leave for step 4.
* For the rendezvous of `main` with the two workers, every statement of the three
  threads is one atomic step and the steps interleave in any order.
-/

set_option linter.dupNamespace false

/-! ## The generator -/

/-- Source: `#define MT_IA 397`. -/
def MT_IA : Int := 397

/-- Source: `#define MT_LEN 624`. -/
def MT_LEN : Int := 624

/-- Reduction of an arithmetic result to an `unsigned int` (32 bits). -/
def u32 (x : Nat) : Nat := x % 2 ^ 32

/-- Source: `class MersenneTwister`, with its fields `unsigned int m_buffer[MT_LEN]`
and `int m_index`. -/
structure MersenneTwister where
  m_buffer : List Nat
  m_index : Int
deriving DecidableEq

/-- Read of `m_buffer[k]`; `none` when `k` is outside the array. -/
def readBuf (buf : List Nat) (k : Int) : Option Nat :=
  if 0 ≤ k ∧ k < MT_LEN then buf[k.toNat]? else none

/-- Write `m_buffer[k] = v`; `none` when `k` is outside the array. -/
def writeBuf (buf : List Nat) (k : Int) (v : Nat) : Option (List Nat) :=
  if 0 ≤ k ∧ k < MT_LEN ∧ k.toNat < buf.length then some (buf.set k.toNat v) else none

/-- Source, line 49: `int i2 = m_index + 1; if (i2 >= MT_LEN) i2 = 0;`. -/
def index_i2 (m_index : Int) : Int :=
  if m_index + 1 ≥ MT_LEN then 0 else m_index + 1

/-- Source, line 50: `int j = m_index + MT_IA; if (j >= MT_LEN) j -= MT_LEN;`. -/
def index_j (m_index : Int) : Int :=
  if m_index + MT_IA ≥ MT_LEN then m_index + MT_IA - MT_LEN else m_index + MT_IA

/-- Source, lines 59-62 (the "Swizzle" block of `integer`).  The two masks carry the
suffix `UL`: the shifted `unsigned int` is widened, combined, and the result is
stored back into the `unsigned int` variable `r`. -/
def swizzle (r0 : Nat) : Nat :=
  let r1 := r0 ^^^ (r0 >>> 11)
  let r2 := u32 (r1 ^^^ (u32 (r1 <<< 7) &&& 0x9d2c5680))
  let r3 := u32 (r2 ^^^ (u32 (r2 <<< 15) &&& 0xefc60000))
  r3 ^^^ (r3 >>> 18)

/-- Source, lines 45-64: `unsigned int MersenneTwister::integer()`.  Returns the
tempered word and the state after the call. -/
def MersenneTwister.integer (g : MersenneTwister) : Option (Nat × MersenneTwister) := do
  let i := g.m_index
  let i2 := index_i2 g.m_index
  let j := index_j g.m_index
  let bi ← readBuf g.m_buffer i
  let bi2 ← readBuf g.m_buffer i2
  let s := (bi &&& 0x80000000) ||| (bi2 &&& 0x7fffffff)
  let bj ← readBuf g.m_buffer j
  let r := (bj ^^^ (s >>> 1)) ^^^ u32 ((s &&& 1) * 0x9908B0DF)
  let buf ← writeBuf g.m_buffer g.m_index r
  some (swizzle r, { m_buffer := buf, m_index := i2 })

/-- The loop `for (int i = start; i < start + n; i++) body`: `n` runs of the body,
with the loop variable `i` counting up from `start`. -/
def forLoop {σ : Type} (body : Int → σ → Option σ) : Nat → Int → σ → Option σ
  | 0, _, s => some s
  | n + 1, i, s => (body i s).bind (forLoop body n (i + 1))

/-- Source, lines 34-43: the constructor `MersenneTwister::MersenneTwister(seed)`.
`raw` is the content of the storage of `m_buffer` before the constructor runs. -/
def MersenneTwister.MersenneTwister (raw : List Nat) (seed : Nat) : Option MersenneTwister :=
  (forLoop (fun i buf => writeBuf buf i seed) MT_LEN.toNat 0 raw).bind fun buf =>
    forLoop (fun _ g => g.integer.map Prod.snd) (MT_LEN * 100).toNat 0
      { m_buffer := buf, m_index := 0 }

/-- The values returned by `n` successive calls of `integer()`, with the state left
behind. -/
def draws : Nat → MersenneTwister → Option (List Nat × MersenneTwister)
  | 0, g => some ([], g)
  | n + 1, g => g.integer.bind fun p => (draws n p.2).map fun q => (p.1 :: q.1, q.2)

/-- The specification's tempering of a 32-bit word `y`: `y ^= y >> 11;`
`y ^= (y << 7) AND 0x9d2c5680;` `y ^= (y << 15) AND 0xefc60000;` `y ^= y >> 18`, the
left shifts being shifts of 32-bit words. -/
def temper (y : Nat) : Nat :=
  let y1 := y ^^^ (y >>> 11)
  let y2 := y1 ^^^ (((y1 <<< 7) % 2 ^ 32) &&& 0x9d2c5680)
  let y3 := y2 ^^^ (((y2 <<< 15) % 2 ^ 32) &&& 0xefc60000)
  y3 ^^^ (y3 >>> 18)

/-- The specification's mixed word `s` at cursor `i`: the high bit of the current
word with the low 31 bits of the next one. -/
def mixedWord (buf : List Nat) (i : Nat) : Nat :=
  (buf.getD i 0 &&& 0x80000000) ||| (buf.getD ((i + 1) % 624) 0 &&& 0x7fffffff)

/-- The specification's twisted word `r` at cursor `i`. -/
def twistedWord (buf : List Nat) (i : Nat) : Nat :=
  (buf.getD ((i + 397) % 624) 0 ^^^ (mixedWord buf i >>> 1)) ^^^
    (if mixedWord buf i % 2 = 1 then 0x9908B0DF else 0)

/-- The state on which the specification starts the warm-up: 624 words equal to
`seed`, cursor 0. -/
def seededState (seed : Nat) : MersenneTwister :=
  { m_buffer := List.replicate 624 seed, m_index := 0 }

/-- The `integer()` step applied `n` times, the returned values dropped. -/
def stepTimes : Nat → MersenneTwister → Option MersenneTwister
  | 0, g => some g
  | n + 1, g => g.integer.bind fun p => stepTimes n p.2

/-- The largest value of a 32-bit `int`. -/
def INT_MAX : Int := 2147483647

/-- The increment `x++` of an `int`: a signed overflow is undefined behaviour. -/
def incrInt (x : Int) : Option Int :=
  if x < INT_MAX then some (x + 1) else none

/-- The locals `detected` and `iterations` of `main`, and the lines written to the
standard output so far. -/
structure MainState where
  detected : Int
  iterations : Int
  output : List String
deriving DecidableEq

/-- Source, line 159:
`printf("%d reorders detected after %d iterations\n", detected, iterations)`. -/
def printfReport (detected iterations : Int) : String :=
  toString detected ++ " reorders detected after " ++ toString iterations ++ " iterations\n"

/-- Source, lines 143-144: `int detected = 0;` and the initialiser `int iterations = 1`
of the loop. -/
def mainInit : MainState := { detected := 0, iterations := 1, output := [] }

/-- Source, lines 156-160: step 4 of a trial, on the values `r1` and `r2` that the
coordinator reads after its two waits on `endSema`. -/
def mainStep4 (s : MainState) (r1 r2 : Int) : Option MainState :=
  if r1 = 0 ∧ r2 = 0 then
    (incrInt s.detected).map fun d =>
      { s with detected := d, output := s.output ++ [printfReport d s.iterations] }
  else some s

/-- One iteration of the loop of line 144: the body, then `iterations++`. -/
def mainIteration (s : MainState) (o : Int × Int) : Option MainState :=
  (mainStep4 s o.1 o.2).bind fun e =>
    (incrInt e.iterations).map fun it => { e with iterations := it }

/-- The loop of line 144 run over the outcomes `(r1, r2)` of successive trials, from
the head of an iteration to the head of the iteration after the last outcome. -/
def mainLoop : MainState → List (Int × Int) → Option MainState
  | s, [] => some s
  | s, o :: rest => (mainIteration s o).bind fun s1 => mainLoop s1 rest

/-- The standard output of `main` once step 4 of the last of the given trials has
run. -/
def mainOutput (trials : List (Int × Int)) : Option (List String) :=
  match trials.getLast? with
  | none => some mainInit.output
  | some o => ((mainLoop mainInit trials.dropLast).bind fun h => mainStep4 h o.1 o.2).map
      fun e => e.output

/-- The specification's report line, without its line terminator. -/
def specLine (N M : Nat) : String :=
  toString N ++ " reorders detected after " ++ toString M ++ " iterations"

/-- The 1-based positions, counted from `m`, of the trials whose outcome is
`r1 = 0` and `r2 = 0`. -/
def detectionsFrom (m : Nat) (trials : List (Int × Int)) : List Nat :=
  ((trials.enumFrom m).filter fun p => p.2.1 = 0 ∧ p.2.2 = 0).map Prod.fst

/-- The specification's output: the `k`-th detection, at trial `M`, gives the line
with `N = k`. -/
def specOutputFrom (d m : Nat) (trials : List (Int × Int)) : List String :=
  ((detectionsFrom m trials).enumFrom d).map fun q => specLine q.1 q.2 ++ "\n"

/-- The number of detections among the given trials. -/
def detectionCount (trials : List (Int × Int)) : Nat :=
  trials.countP fun o => o.1 = 0 ∧ o.2 = 0

/-- The counters at the head of an iteration:
`0 <= detected < iterations <= INT_MAX`. -/
def HeadInv (s : MainState) : Prop :=
  0 ≤ s.detected ∧ s.detected < s.iterations ∧ s.iterations ≤ INT_MAX

/-! ## The three threads and their rendezvous

Every statement of `main`, `thread1Func` and `thread2Func` is one atomic step of its
thread; the steps of the three threads interleave in any order.  A semaphore is its
counter: `sem_post` adds one, `sem_wait` takes one and is not enabled at zero.  The
fields `trial`, `Xtag`, `Ytag`, `r1tag`, `r2tag`, `r1seen` and `r2seen` are not
variables of the program: they record the trial in which a worker is, the trial in
which each shared cell was last written, and the trial of the value that a worker
read. -/

theorem readBuf_eq (buf : List Nat) (k : Nat) (hlen : buf.length = 624) (hk : k < 624) :
    readBuf buf (k : Int) = some (buf.getD k 0) := by
  have h1 : (0 : Int) ≤ (k : Int) ∧ (k : Int) < MT_LEN := by
    unfold MT_LEN; omega
  unfold readBuf
  rw [if_pos h1]
  simp only [Int.toNat_ofNat]
  rw [List.getD_eq_getElem?_getD, List.getElem?_eq_getElem (by omega)]
  simp

theorem index_i2_eq (i : Nat) (hi : i < 624) : index_i2 (i : Int) = (((i + 1) % 624 : Nat) : Int) := by
  unfold index_i2 MT_LEN
  split <;> omega

theorem index_j_eq (i : Nat) (hi : i < 624) : index_j (i : Int) = (((i + 397) % 624 : Nat) : Int) := by
  unfold index_j MT_LEN MT_IA
  split <;> omega

theorem twist_bit_eq (s : Nat) :
    u32 ((s &&& 1) * 0x9908B0DF) = if s % 2 = 1 then 0x9908B0DF else 0 := by
  rw [Nat.and_one_is_mod]
  rcases Nat.mod_two_eq_zero_or_one s with h | h <;> simp [h, u32]

/-- One call at a cursor inside the buffer: the closed form. -/
theorem integer_eq (g : MersenneTwister) (i : Nat) (hlen : g.m_buffer.length = 624)
    (hidx : g.m_index = (i : Int)) (hi : i < 624) :
    g.integer = some (swizzle (twistedWord g.m_buffer i),
      { m_buffer := g.m_buffer.set i (twistedWord g.m_buffer i),
        m_index := (((i + 1) % 624 : Nat) : Int) }) := by
  have h1 : (i + 1) % 624 < 624 := Nat.mod_lt _ (by norm_num)
  have h2 : (i + 397) % 624 < 624 := Nat.mod_lt _ (by norm_num)
  have hw : ∀ v, writeBuf g.m_buffer (i : Int) v = some (g.m_buffer.set i v) := by
    intro v
    have : (0 : Int) ≤ (i : Int) ∧ (i : Int) < MT_LEN ∧ (i : Int).toNat < g.m_buffer.length := by
      unfold MT_LEN; simp; omega
    unfold writeBuf
    rw [if_pos this]; simp
  unfold MersenneTwister.integer
  rw [hidx, index_i2_eq i hi, index_j_eq i hi]
  dsimp only
  rw [readBuf_eq _ i hlen hi, readBuf_eq _ _ hlen h1, readBuf_eq _ _ hlen h2]
  simp only [Option.bind_eq_bind, Option.some_bind, hw, twist_bit_eq]
  rfl

/-! ### Tempering: range and injectivity -/

theorem u32_lt (x : Nat) : u32 x < 2 ^ 32 := Nat.mod_lt _ (by norm_num)

theorem u32_of_lt {x : Nat} (h : x < 2 ^ 32) : u32 x = x := Nat.mod_eq_of_lt h

theorem shiftRight_lt {x : Nat} (k : Nat) (h : x < 2 ^ 32) : x >>> k < 2 ^ 32 := by
  rw [Nat.shiftRight_eq_div_pow]
  exact lt_of_le_of_lt (Nat.div_le_self _ _) h

theorem xorShiftRight_lt {x : Nat} (k : Nat) (h : x < 2 ^ 32) : x ^^^ (x >>> k) < 2 ^ 32 :=
  Nat.xor_lt_two_pow h (shiftRight_lt k h)

theorem testBit_high {x : Nat} (h : x < 2 ^ 32) {i : Nat} (hi : 32 ≤ i) : x.testBit i = false :=
  Nat.testBit_lt_two_pow (lt_of_lt_of_le h (Nat.pow_le_pow_right (by norm_num) hi))

/-- The step `y ^= y >> k` (`k > 0`) is injective on 32-bit words. -/
theorem xorShiftRight_inj (k : Nat) (hk : 0 < k) {a b : Nat} (ha : a < 2 ^ 32) (hb : b < 2 ^ 32)
    (h : a ^^^ (a >>> k) = b ^^^ (b >>> k)) : a = b := by
  have key : ∀ n i : Nat, 32 ≤ i + n → a.testBit i = b.testBit i := by
    intro n
    induction n with
    | zero =>
      intro i hi
      rw [testBit_high ha (by omega), testBit_high hb (by omega)]
    | succ n ih =>
      intro i hi
      have hbit := congrArg (fun x => x.testBit i) h
      simp only [Nat.testBit_xor, Nat.testBit_shiftRight] at hbit
      have hnext := ih (k + i) (by omega)
      rw [hnext] at hbit
      revert hbit
      cases a.testBit i <;> cases b.testBit i <;> cases b.testBit (k + i) <;> simp
  exact Nat.eq_of_testBit_eq fun i => key 32 i (by omega)

/-- The step `y ^= (y << k) & m` (`k > 0`) is injective on 32-bit words. -/
theorem xorShiftLeftMask_inj (k m : Nat) (hk : 0 < k) {a b : Nat} (ha : a < 2 ^ 32)
    (hb : b < 2 ^ 32)
    (h : u32 (a ^^^ (u32 (a <<< k) &&& m)) = u32 (b ^^^ (u32 (b <<< k) &&& m))) : a = b := by
  have key : ∀ i : Nat, a.testBit i = b.testBit i := by
    intro i
    induction i using Nat.strong_induction_on with
    | _ i ih =>
      by_cases hi : 32 ≤ i
      · rw [testBit_high ha hi, testBit_high hb hi]
      · have hbit := congrArg (fun x => x.testBit i) h
        simp only [u32, Nat.testBit_mod_two_pow, Nat.testBit_xor, Nat.testBit_and,
          Nat.testBit_shiftLeft] at hbit
        have hi2 : i < 32 := by omega
        simp only [hi2, decide_True, Bool.true_and] at hbit
        by_cases hki : k ≤ i
        · have hprev := ih (i - k) (by omega)
          rw [hprev] at hbit
          revert hbit
          cases a.testBit i <;> cases b.testBit i <;> cases b.testBit (i - k) <;>
            cases m.testBit i <;> simp
        · have : ¬ (i ≥ k) := hki
          simp only [this, decide_False, Bool.false_and, Bool.xor_false] at hbit
          exact hbit
  exact Nat.eq_of_testBit_eq key

theorem swizzle_lt (r : Nat) : swizzle r < 2 ^ 32 := by
  unfold swizzle
  exact xorShiftRight_lt 18 (u32_lt _)

theorem swizzle_injective {a b : Nat} (ha : a < 2 ^ 32) (hb : b < 2 ^ 32)
    (h : swizzle a = swizzle b) : a = b := by
  unfold swizzle at h
  have h3 := xorShiftRight_inj 18 (by norm_num) (u32_lt _) (u32_lt _) h
  have h2 := xorShiftLeftMask_inj 15 _ (by norm_num) (u32_lt _) (u32_lt _) h3
  have h1 := xorShiftLeftMask_inj 7 _ (by norm_num) (xorShiftRight_lt 11 ha)
    (xorShiftRight_lt 11 hb) h2
  exact xorShiftRight_inj 11 (by norm_num) ha hb h1

theorem swizzle_eq_temper (r : Nat) (h : r < 2 ^ 32) : swizzle r = temper r := by
  have hm : ∀ x y m : Nat, m < 2 ^ 32 → x < 2 ^ 32 → u32 (x ^^^ (y &&& m)) = x ^^^ (y &&& m) :=
    fun x y m hm hx => u32_of_lt (Nat.xor_lt_two_pow hx (Nat.and_lt_two_pow y hm))
  have h1 := xorShiftRight_lt 11 h
  unfold swizzle temper
  simp only []
  rw [hm _ _ _ (by norm_num) h1]
  have h2 : (r ^^^ r >>> 11) ^^^ (u32 ((r ^^^ r >>> 11) <<< 7) &&& 0x9d2c5680) < 2 ^ 32 :=
    Nat.xor_lt_two_pow h1 (Nat.and_lt_two_pow _ (by norm_num))
  rw [hm _ _ _ (by norm_num) h2]
  rfl

theorem swizzle_surjective (y : Nat) (hy : y < 2 ^ 32) : ∃ r, r < 2 ^ 32 ∧ swizzle r = y := by
  let f : Fin (2 ^ 32) → Fin (2 ^ 32) := fun x => ⟨swizzle x.1, swizzle_lt x.1⟩
  have hinj : Function.Injective f := by
    intro a b hab
    have : swizzle a.1 = swizzle b.1 := congrArg Fin.val hab
    exact Fin.ext (swizzle_injective a.2 b.2 this)
  obtain ⟨x, hx⟩ := (Finite.injective_iff_surjective.mp hinj) ⟨y, hy⟩
  exact ⟨x.1, x.2, congrArg Fin.val hx⟩

/-! ### The twisted word is a 32-bit word -/

theorem getD_lt (buf : List Nat) (hwords : ∀ w ∈ buf, w < 2 ^ 32) (k : Nat) :
    buf.getD k 0 < 2 ^ 32 := by
  rw [List.getD_eq_getElem?_getD]
  by_cases hk : k < buf.length
  · rw [List.getElem?_eq_getElem hk]
    exact hwords _ (List.getElem_mem hk)
  · rw [List.getElem?_eq_none (by omega)]
    norm_num

theorem mixedWord_lt (buf : List Nat) (i : Nat) : mixedWord buf i < 2 ^ 32 := by
  unfold mixedWord
  exact Nat.or_lt_two_pow (Nat.and_lt_two_pow _ (by norm_num)) (Nat.and_lt_two_pow _ (by norm_num))

theorem twistedWord_lt (buf : List Nat) (hwords : ∀ w ∈ buf, w < 2 ^ 32) (i : Nat) :
    twistedWord buf i < 2 ^ 32 := by
  unfold twistedWord
  refine Nat.xor_lt_two_pow (Nat.xor_lt_two_pow (getD_lt buf hwords _)
    (shiftRight_lt 1 (mixedWord_lt buf i))) ?_
  split <;> norm_num

/-! ### The constructor -/

/-- The first loop of the constructor overwrites the slots `k, ..., k + n - 1`. -/
theorem fillLoop_spec (seed : Nat) :
    ∀ (n k : Nat) (buf : List Nat), buf.length = 624 → k + n ≤ 624 →
      ∃ out, forLoop (fun i b => writeBuf b i seed) n (k : Int) buf = some out ∧
        out.length = 624 ∧
        ∀ p, out[p]? = if k ≤ p ∧ p < k + n then some seed else buf[p]? := by
  intro n
  induction n with
  | zero =>
    intro k buf hlen _
    refine ⟨buf, rfl, hlen, fun p => ?_⟩
    rw [if_neg (by omega)]
  | succ n ih =>
    intro k buf hlen hk
    have hw : writeBuf buf (k : Int) seed = some (buf.set k seed) := by
      have : (0 : Int) ≤ (k : Int) ∧ (k : Int) < MT_LEN ∧ (k : Int).toNat < buf.length := by
        unfold MT_LEN; simp; omega
      unfold writeBuf
      rw [if_pos this]; simp
    obtain ⟨out, hout, hlen2, hget⟩ := ih (k + 1) (buf.set k seed) (by simpa using hlen) (by omega)
    refine ⟨out, ?_, hlen2, fun p => ?_⟩
    · have hcast : ((k : Int) + 1) = ((k + 1 : Nat) : Int) := by push_cast; rfl
      simp only [forLoop, hw, Option.some_bind, hcast]
      exact hout
    · rw [hget p, List.getElem?_set]
      by_cases h1 : k = p
      · subst h1
        simp; omega
      · by_cases h2 : k + 1 ≤ p ∧ p < k + 1 + n
        · rw [if_pos h2, if_pos (by omega)]
        · rw [if_neg h2, if_neg h1]
          by_cases h3 : k ≤ p ∧ p < k + (n + 1)
          · omega
          · rw [if_neg h3]

theorem fillLoop_eq (raw : List Nat) (seed : Nat) (hraw : raw.length = 624) :
    forLoop (fun i b => writeBuf b i seed) MT_LEN.toNat 0 raw = some (List.replicate 624 seed) := by
  obtain ⟨out, hout, hlen, hget⟩ := fillLoop_spec seed 624 0 raw hraw (by norm_num)
  have : out = List.replicate 624 seed := by
    apply List.ext_getElem?
    intro p
    rw [hget p, List.getElem?_replicate]
    by_cases hp : p < 624
    · rw [if_pos (by omega), if_pos hp]
    · rw [if_neg (by omega), if_neg hp, List.getElem?_eq_none (by omega)]
  rw [← this]
  exact hout

/-- The second loop of the constructor is the `integer()` step applied `n` times. -/
theorem warmLoop_eq (n : Nat) :
    ∀ (i : Int) (g : MersenneTwister),
      forLoop (fun _ g => g.integer.map Prod.snd) n i g = stepTimes n g := by
  induction n with
  | zero => intro i g; rfl
  | succ n ih =>
    intro i g
    simp only [forLoop, stepTimes]
    cases h : g.integer with
    | none => rfl
    | some p => simp [ih]

/-- From a cursor inside the buffer, `n` steps succeed and move the cursor to
`(i + n) mod 624`. -/
theorem stepTimes_spec (n : Nat) :
    ∀ (g : MersenneTwister) (i : Nat), g.m_buffer.length = 624 → g.m_index = (i : Int) →
      i < 624 →
      ∃ g1, stepTimes n g = some g1 ∧ g1.m_buffer.length = 624 ∧
        g1.m_index = (((i + n) % 624 : Nat) : Int) := by
  induction n with
  | zero =>
    intro g i hlen hidx hi
    exact ⟨g, rfl, hlen, by rw [hidx, Nat.add_zero, Nat.mod_eq_of_lt hi]⟩
  | succ n ih =>
    intro g i hlen hidx hi
    obtain ⟨g1, h1, hlen1, hidx1⟩ := ih _ ((i + 1) % 624)
      (show (g.m_buffer.set i (twistedWord g.m_buffer i)).length = 624 by simpa using hlen)
      (show (⟨g.m_buffer.set i (twistedWord g.m_buffer i), (((i + 1) % 624 : Nat) : Int)⟩ :
        MersenneTwister).m_index = _ from rfl)
      (Nat.mod_lt _ (by norm_num))
    refine ⟨g1, ?_, hlen1, ?_⟩
    · simp only [stepTimes, integer_eq g i hlen hidx hi, Option.some_bind]
      exact h1
    · rw [hidx1]
      congr 1
      omega

/-- Steps from a state of 32-bit words lead to states of 32-bit words. -/
theorem stepTimes_words (n : Nat) :
    ∀ (g g1 : MersenneTwister) (i : Nat), g.m_buffer.length = 624 → g.m_index = (i : Int) →
      i < 624 → (∀ w ∈ g.m_buffer, w < 2 ^ 32) → stepTimes n g = some g1 →
      ∀ w ∈ g1.m_buffer, w < 2 ^ 32 := by
  induction n with
  | zero =>
    intro g g1 i _ _ _ hw hrun
    rw [← Option.some.inj hrun]
    exact hw
  | succ n ih =>
    intro g g1 i hlen hidx hi hw hrun
    simp only [stepTimes, integer_eq g i hlen hidx hi, Option.some_bind] at hrun
    refine ih _ g1 ((i + 1) % 624) ?_ rfl (Nat.mod_lt _ (by norm_num)) ?_ hrun
    · simpa using hlen
    · intro w hmem
      rcases List.mem_or_eq_of_mem_set hmem with h | h
      · exact hw w h
      · rw [h]
        exact twistedWord_lt g.m_buffer hw i

theorem constructor_eq (raw : List Nat) (seed : Nat) (hraw : raw.length = 624) :
    MersenneTwister.MersenneTwister raw seed = stepTimes 62400 (seededState seed) := by
  unfold MersenneTwister.MersenneTwister
  rw [fillLoop_eq raw seed hraw, Option.some_bind, warmLoop_eq]
  rfl

theorem constructor_spec (raw : List Nat) (seed : Nat) (hraw : raw.length = 624) :
    ∃ g, MersenneTwister.MersenneTwister raw seed = some g ∧ g.m_buffer.length = 624 ∧
      g.m_index = 0 := by
  obtain ⟨g, hg, hlen, hidx⟩ := stepTimes_spec 62400 (seededState seed) 0
    (List.length_replicate 624 seed) rfl (by norm_num)
  exact ⟨g, by rw [constructor_eq raw seed hraw, hg], hlen, by simpa using hidx⟩

/-- From a cursor inside the buffer every finite run of draws succeeds. -/
theorem draws_spec (n : Nat) :
    ∀ (g : MersenneTwister) (i : Nat), g.m_buffer.length = 624 → g.m_index = (i : Int) →
      i < 624 → ∃ vals g1, draws n g = some (vals, g1) ∧ vals.length = n := by
  induction n with
  | zero => intro g i _ _ _; exact ⟨[], g, rfl, rfl⟩
  | succ n ih =>
    intro g i hlen hidx hi
    obtain ⟨vals, g1, h1, hl⟩ := ih _ ((i + 1) % 624)
      (show (g.m_buffer.set i (twistedWord g.m_buffer i)).length = 624 by simpa using hlen)
      (show (⟨g.m_buffer.set i (twistedWord g.m_buffer i), (((i + 1) % 624 : Nat) : Int)⟩ :
        MersenneTwister).m_index = _ from rfl)
      (Nat.mod_lt _ (by norm_num))
    refine ⟨swizzle (twistedWord g.m_buffer i) :: vals, g1, ?_, by simp [hl]⟩
    simp only [draws, integer_eq g i hlen hidx hi, Option.some_bind, h1, Option.map_some']

/-! ### The all-zero state -/

theorem printfReport_eq (N M : Nat) : printfReport (N : Int) (M : Int) = specLine N M ++ "\n" := by
  have h : ∀ n : Nat, toString (n : Int) = toString n := fun n => rfl
  have h2 : " iterations" ++ "\n" = " iterations\n" := by decide
  unfold printfReport specLine
  rw [h, h]
  simp only [String.append_assoc, h2]

theorem incrInt_eq (n : Nat) (h : n < 2147483647) : incrInt (n : Int) = some ((n + 1 : Nat) : Int) := by
  unfold incrInt INT_MAX
  rw [if_pos (by omega)]
  push_cast
  rfl

theorem incrInt_max : incrInt 2147483647 = none := by decide

theorem specOutputFrom_cons (d m : Nat) (o : Int × Int) (rest : List (Int × Int)) :
    specOutputFrom d m (o :: rest) =
      if o.1 = 0 ∧ o.2 = 0 then (specLine d m ++ "\n") :: specOutputFrom (d + 1) (m + 1) rest
      else specOutputFrom d (m + 1) rest := by
  unfold specOutputFrom detectionsFrom
  by_cases h : o.1 = 0 ∧ o.2 = 0
  · simp [List.enumFrom_cons, List.filter_cons, h]
  · simp [List.enumFrom_cons, List.filter_cons, h]

/-- Step 4 at the head of an iteration whose counters are in range. -/
theorem mainStep4_eq (d m : Nat) (out : List String) (o : Int × Int) (hd : d < 2147483647) :
    mainStep4 ⟨(d : Int), (m : Int), out⟩ o.1 o.2 =
      some (if o.1 = 0 ∧ o.2 = 0 then ⟨((d + 1 : Nat) : Int), (m : Int), out ++ [specLine (d + 1) m ++ "\n"]⟩
        else ⟨(d : Int), (m : Int), out⟩) := by
  unfold mainStep4
  by_cases h : o.1 = 0 ∧ o.2 = 0
  · rw [if_pos h, if_pos h]
    simp only [incrInt_eq d hd, Option.map_some', printfReport_eq]
  · rw [if_neg h, if_neg h]

/-- One whole iteration at the head of an iteration whose counters are in range. -/
theorem mainIteration_eq (d m : Nat) (out : List String) (o : Int × Int) (hd : d < 2147483647)
    (hm : m < 2147483647) :
    mainIteration ⟨(d : Int), (m : Int), out⟩ o =
      some (if o.1 = 0 ∧ o.2 = 0 then
        ⟨((d + 1 : Nat) : Int), ((m + 1 : Nat) : Int), out ++ [specLine (d + 1) m ++ "\n"]⟩
        else ⟨(d : Int), ((m + 1 : Nat) : Int), out⟩) := by
  unfold mainIteration
  rw [mainStep4_eq d m out o hd]
  by_cases h : o.1 = 0 ∧ o.2 = 0
  · rw [if_pos h, if_pos h, Option.some_bind]
    dsimp only
    rw [incrInt_eq m hm]
    rfl
  · rw [if_neg h, if_neg h, Option.some_bind]
    dsimp only
    rw [incrInt_eq m hm]
    rfl

theorem detectionCount_le (trials : List (Int × Int)) : detectionCount trials ≤ trials.length :=
  List.countP_le_length _

/-- The loop from the head of an iteration, as long as `iterations` stays in range. -/
theorem mainLoop_spec :
    ∀ (trials : List (Int × Int)) (d m : Nat) (out : List String), d < m →
      m + trials.length ≤ 2147483647 →
      mainLoop ⟨(d : Int), (m : Int), out⟩ trials =
        some ⟨((d + detectionCount trials : Nat) : Int), ((m + trials.length : Nat) : Int),
          out ++ specOutputFrom (d + 1) m trials⟩ := by
  intro trials
  induction trials with
  | nil =>
    intro d m out _ _
    simp [mainLoop, detectionCount, specOutputFrom, detectionsFrom]
  | cons o rest ih =>
    intro d m out hdm hlen
    have hlen2 : m + (rest.length + 1) ≤ 2147483647 := hlen
    clear hlen
    have hit := mainIteration_eq d m out o (by omega) (by omega)
    simp only [mainLoop, hit, Option.some_bind]
    rw [specOutputFrom_cons]
    by_cases h : o.1 = 0 ∧ o.2 = 0
    · rw [if_pos h, if_pos h, ih (d + 1) (m + 1) _ (by omega) (by omega)]
      have hc : detectionCount (o :: rest) = detectionCount rest + 1 := by
        simp [detectionCount, List.countP_cons, h]
      simp only [hc, List.length_cons, List.append_assoc, List.singleton_append]
      congr 2
      · congr 1; omega
      · congr 1; omega
    · rw [if_neg h, if_neg h, ih d (m + 1) _ (by omega) (by omega)]
      have hc : detectionCount (o :: rest) = detectionCount rest := by
        simp [detectionCount, List.countP_cons, h]
      simp only [hc, List.length_cons]
      congr 2
      congr 1; omega

theorem specOutputFrom_concat (o : Int × Int) :
    ∀ (pre : List (Int × Int)) (d m : Nat),
      specOutputFrom d m (pre ++ [o]) = specOutputFrom d m pre ++
        (if o.1 = 0 ∧ o.2 = 0 then
          [specLine (d + detectionCount pre) (m + pre.length) ++ "\n"] else []) := by
  intro pre
  induction pre with
  | nil =>
    intro d m
    rw [List.nil_append, specOutputFrom_cons]
    by_cases h : o.1 = 0 ∧ o.2 = 0
    · simp [h, detectionCount, specOutputFrom, detectionsFrom]
    · simp [h, specOutputFrom, detectionsFrom]
  | cons a rest ih =>
    intro d m
    rw [List.cons_append, specOutputFrom_cons, specOutputFrom_cons]
    by_cases ha : a.1 = 0 ∧ a.2 = 0
    · have hc : detectionCount (a :: rest) = detectionCount rest + 1 := by
        simp [detectionCount, List.countP_cons, ha]
      rw [if_pos ha, if_pos ha, ih, hc, List.length_cons, List.cons_append]
      have e1 : d + 1 + detectionCount rest = d + (detectionCount rest + 1) := by omega
      have e2 : m + 1 + rest.length = m + (rest.length + 1) := by omega
      rw [e1, e2]
    · have hc : detectionCount (a :: rest) = detectionCount rest := by
        simp [detectionCount, List.countP_cons, ha]
      rw [if_neg ha, if_neg ha, ih, hc, List.length_cons]
      have e2 : m + 1 + rest.length = m + (rest.length + 1) := by omega
      rw [e2]

/-- The loop from the start of `main`, as long as `iterations` stays in range. -/
theorem mainLoop_init (pre : List (Int × Int)) (hlen : pre.length + 1 ≤ 2147483647) :
    mainLoop mainInit pre =
      some ⟨((detectionCount pre : Nat) : Int), ((1 + pre.length : Nat) : Int),
        specOutputFrom 1 1 pre⟩ := by
  have h := mainLoop_spec pre 0 1 [] (by omega) (by omega)
  rw [Nat.zero_add, List.nil_append] at h
  exact h

theorem headInv_nat {s : MainState} (h : HeadInv s) :
    ∃ d m : Nat, s.detected = (d : Int) ∧ s.iterations = (m : Int) ∧ d < m ∧
      m ≤ 2147483647 := by
  obtain ⟨h0, h1, h2⟩ := h
  unfold INT_MAX at h2
  obtain ⟨d, hd⟩ := Int.eq_ofNat_of_zero_le h0
  obtain ⟨m, hm⟩ := Int.eq_ofNat_of_zero_le (le_trans h0 (le_of_lt h1))
  exact ⟨d, m, hd, hm, by omega, by omega⟩

theorem headInv_of_nat (d m : Nat) (out : List String) (hdm : d < m) (hm : m ≤ 2147483647) :
    HeadInv ⟨(d : Int), (m : Int), out⟩ := by
  unfold HeadInv INT_MAX
  exact ⟨by simp, by simpa using hdm, by simp only; omega⟩

theorem mainIteration_inv (s s1 : MainState) (o : Int × Int) (hs : HeadInv s)
    (h : mainIteration s o = some s1) : HeadInv s1 := by
  obtain ⟨d, m, hd, hm, hdm, hmax⟩ := headInv_nat hs
  obtain ⟨det, it, out⟩ := s
  simp only at hd hm
  subst hd hm
  by_cases hm2 : m < 2147483647
  · rw [mainIteration_eq d m out o (by omega) hm2] at h
    have h2 := Option.some.inj h
    subst h2
    by_cases ho : o.1 = 0 ∧ o.2 = 0
    · rw [if_pos ho]
      exact headInv_of_nat (d + 1) (m + 1) _ (by omega) (by omega)
    · rw [if_neg ho]
      exact headInv_of_nat d (m + 1) _ (by omega) (by omega)
  · exfalso
    unfold mainIteration at h
    rw [mainStep4_eq d m out o (by omega)] at h
    have hmm : m = 2147483647 := by omega
    subst hmm
    by_cases ho : o.1 = 0 ∧ o.2 = 0
    · rw [if_pos ho, Option.some_bind] at h
      dsimp only at h
      rw [show ((2147483647 : Nat) : Int) = 2147483647 from rfl, incrInt_max] at h
      exact absurd h (by simp)
    · rw [if_neg ho, Option.some_bind] at h
      dsimp only at h
      rw [show ((2147483647 : Nat) : Int) = 2147483647 from rfl, incrInt_max] at h
      exact absurd h (by simp)

theorem mainLoop_inv :
    ∀ (trials : List (Int × Int)) (s h : MainState), HeadInv s → mainLoop s trials = some h →
      HeadInv h := by
  intro trials
  induction trials with
  | nil =>
    intro s h hs hrun
    have : s = h := Option.some.inj hrun
    exact this ▸ hs
  | cons o rest ih =>
    intro s h hs hrun
    simp only [mainLoop] at hrun
    cases h1 : mainIteration s o with
    | none => rw [h1] at hrun; exact absurd hrun (by simp)
    | some s1 =>
      rw [h1, Option.some_bind] at hrun
      exact ih s1 h (mainIteration_inv s s1 o hs h1) hrun

theorem mainInit_inv : HeadInv mainInit := by
  unfold HeadInv mainInit
  decide

theorem mainLoop_append (a b : List (Int × Int)) :
    ∀ s : MainState, mainLoop s (a ++ b) = (mainLoop s a).bind fun s1 => mainLoop s1 b := by
  induction a with
  | nil => intro s; rfl
  | cons o rest ih =>
    intro s
    simp only [List.cons_append, mainLoop]
    cases mainIteration s o with
    | none => rfl
    | some s1 => exact ih s1

/-- The increment that would open trial 2147483648 overflows `iterations`. -/
theorem mainLoop_overflow :
    mainLoop mainInit (List.replicate 2147483647 ((1 : Int), (1 : Int))) = none := by
  have hsplit : List.replicate 2147483647 ((1 : Int), (1 : Int)) =
      List.replicate 2147483646 ((1 : Int), (1 : Int)) ++ [((1 : Int), (1 : Int))] :=
    List.replicate_succ' 2147483646 _
  rw [hsplit, mainLoop_append, mainLoop_init _ (by rw [List.length_replicate]),
    Option.some_bind, List.length_replicate]
  simp only [mainLoop]
  unfold mainIteration
  rw [mainStep4_eq _ _ _ _ (by
    have := detectionCount_le (List.replicate 2147483646 ((1 : Int), (1 : Int)))
    rw [List.length_replicate] at this
    omega)]
  rw [if_neg (by decide), Option.some_bind]
  dsimp only
  rw [show (((1 + 2147483646 : Nat)) : Int) = 2147483647 from rfl, incrInt_max]
  rfl

/-! ## The claims about the generator -/

/-- C1: at a cursor `i` in `[0, 624)`, `integer()` returns the tempering of the
twisted word `r`, where `s` mixes the high bit of `buffer[i]` with the low 31 bits of
`buffer[(i+1) mod 624]` and `r = buffer[(i+397) mod 624] XOR (s >> 1) XOR
(0x9908B0DF if s is odd, else 0)`. -/
theorem C1_integer_returns_tempered_twist (g : MersenneTwister) (i : Nat)
    (hlen : g.m_buffer.length = 624) (hwords : ∀ w ∈ g.m_buffer, w < 2 ^ 32)
    (hidx : g.m_index = (i : Int)) (hi : i < 624) :
    ∃ g1, g.integer = some (temper (twistedWord g.m_buffer i), g1) := by
  refine ⟨⟨g.m_buffer.set i (twistedWord g.m_buffer i), (((i + 1) % 624 : Nat) : Int)⟩, ?_⟩
  rw [integer_eq g i hlen hidx hi, swizzle_eq_temper _ (twistedWord_lt g.m_buffer hwords i)]

/-- Witness of C1: the state with all words equal to 5 and cursor 0. -/
theorem C1_witness :
    (seededState 5).m_buffer.length = 624 ∧ (∀ w ∈ (seededState 5).m_buffer, w < 2 ^ 32) ∧
      ∃ g1, (seededState 5).integer =
        some (temper (twistedWord (seededState 5).m_buffer 0), g1) :=
  have hw : ∀ w ∈ (seededState 5).m_buffer, w < 2 ^ 32 := fun w hw => by
    rw [List.eq_of_mem_replicate hw]; norm_num
  ⟨List.length_replicate 624 5, hw,
    C1_integer_returns_tempered_twist (seededState 5) 0 (List.length_replicate 624 5) hw rfl
      (by norm_num)⟩

/-- C2: one call of `integer()` at a cursor `i` in `[0, 624)` stores the untempered
twisted word in slot `i`, leaves every other slot of the buffer unchanged, and sets
the cursor to `(i + 1) mod 624`, which is 0 after a call made at `i = 623`. -/
theorem C2_integer_frame (g : MersenneTwister) (i : Nat) (hlen : g.m_buffer.length = 624)
    (hidx : g.m_index = (i : Int)) (hi : i < 624) :
    ∃ g1, g.integer = some (swizzle (twistedWord g.m_buffer i), g1) ∧
      g1.m_buffer.length = 624 ∧
      g1.m_buffer[i]? = some (twistedWord g.m_buffer i) ∧
      (∀ k, k ≠ i → g1.m_buffer[k]? = g.m_buffer[k]?) ∧
      g1.m_index = (((i + 1) % 624 : Nat) : Int) ∧
      (i = 623 → g1.m_index = 0) := by
  refine ⟨_, integer_eq g i hlen hidx hi, ?_, ?_, ?_, rfl, ?_⟩
  · simpa using hlen
  · rw [List.getElem?_set, if_pos rfl, if_pos (by omega)]
  · intro k hk
    rw [List.getElem?_set, if_neg (fun h => hk h.symm)]
  · intro h623
    subst h623
    rfl

/-- Witness of C2: the state with all words equal to 5 and cursor 623. -/
theorem C2_witness :
    (623 : Nat) < 624 ∧
      ∃ g1, MersenneTwister.integer ⟨List.replicate 624 5, 623⟩ =
          some (swizzle (twistedWord (List.replicate 624 5) 623), g1) ∧
        g1.m_index = 0 := by
  obtain ⟨g1, h1, _, _, _, _, h6⟩ :=
    C2_integer_frame ⟨List.replicate 624 5, 623⟩ 623 (List.length_replicate 624 5) rfl
      (by norm_num)
  exact ⟨by norm_num, g1, h1, h6 rfl⟩

/-- C3: the state built by the constructor from a 32-bit seed does not depend on the
previous content `raw` of the storage: it is the state reached by `624 * 100` steps
of `integer()` from the state with 624 words equal to `seed` and cursor 0, it holds
624 words of 32 bits, its cursor is 0, and two generators built from the same seed
return the same first `n` values, for every `n`. -/
theorem C3_constructor_depends_on_seed_alone (raw raw2 : List Nat) (seed n : Nat)
    (hraw : raw.length = 624) (hraw2 : raw2.length = 624) (hseed : seed < 2 ^ 32) :
    ∃ g, MersenneTwister.MersenneTwister raw seed = some g ∧
      stepTimes (624 * 100) (seededState seed) = some g ∧
      g.m_index = 0 ∧ g.m_buffer.length = 624 ∧ (∀ w ∈ g.m_buffer, w < 2 ^ 32) ∧
      MersenneTwister.MersenneTwister raw2 seed = some g ∧
      ∃ vals g1, (MersenneTwister.MersenneTwister raw seed).bind (draws n) = some (vals, g1) ∧
        (MersenneTwister.MersenneTwister raw2 seed).bind (draws n) = some (vals, g1) ∧
        vals.length = n := by
  obtain ⟨g, hg, hlen, hidx⟩ := constructor_spec raw seed hraw
  have hsteps : stepTimes (624 * 100) (seededState seed) = some g := by
    rw [← hg, constructor_eq raw seed hraw]
  have hg2 : MersenneTwister.MersenneTwister raw2 seed = some g := by
    rw [constructor_eq raw2 seed hraw2, ← constructor_eq raw seed hraw, hg]
  have hwords : ∀ w ∈ g.m_buffer, w < 2 ^ 32 :=
    stepTimes_words (624 * 100) (seededState seed) g 0 (List.length_replicate 624 seed) rfl
      (by norm_num) (fun w hw => by rw [List.eq_of_mem_replicate hw]; exact hseed) hsteps
  obtain ⟨vals, g1, hd, hl⟩ := draws_spec n g 0 hlen (by rw [hidx]; rfl) (by norm_num)
  refine ⟨g, hg, hsteps, hidx, hlen, hwords, hg2, vals, g1, ?_, ?_, hl⟩
  · rw [hg, Option.some_bind, hd]
  · rw [hg2, Option.some_bind, hd]

/-- Witness of C3: seed 1, over storage holding zeros or sevens, three draws. -/
theorem C3_witness :
    (List.replicate 624 0).length = 624 ∧ (List.replicate 624 7).length = 624 ∧
      (1 : Nat) < 2 ^ 32 ∧
      ∃ g, MersenneTwister.MersenneTwister (List.replicate 624 0) 1 = some g ∧
        MersenneTwister.MersenneTwister (List.replicate 624 7) 1 = some g ∧ g.m_index = 0 := by
  obtain ⟨g, h1, _, h3, _, _, h4, _⟩ :=
    C3_constructor_depends_on_seed_alone (List.replicate 624 0) (List.replicate 624 7) 1 3
      (List.length_replicate 624 0) (List.length_replicate 624 7) (by norm_num)
  exact ⟨List.length_replicate 624 0, List.length_replicate 624 7, by norm_num, g, h1, h4, h3⟩

/-- C9: the constructor leaves the cursor in `[0, MT_LEN)`; from a cursor in
`[0, MT_LEN)` the indices `i`, `i2` and `j` of `integer()` lie in `[0, MT_LEN)`, each
read and the write of `m_buffer` is inside the array, the call returns, and the
cursor it leaves is again in `[0, MT_LEN)`. -/
theorem C9_cursor_invariant (raw : List Nat) (seed : Nat) (g : MersenneTwister)
    (hraw : raw.length = 624) (hlen : g.m_buffer.length = 624) (h0 : 0 ≤ g.m_index)
    (h1 : g.m_index < MT_LEN) :
    (∃ g0, MersenneTwister.MersenneTwister raw seed = some g0 ∧ g0.m_buffer.length = 624 ∧
      0 ≤ g0.m_index ∧ g0.m_index < MT_LEN) ∧
    (0 ≤ index_i2 g.m_index ∧ index_i2 g.m_index < MT_LEN) ∧
    (0 ≤ index_j g.m_index ∧ index_j g.m_index < MT_LEN) ∧
    (readBuf g.m_buffer g.m_index).isSome ∧
    (readBuf g.m_buffer (index_i2 g.m_index)).isSome ∧
    (readBuf g.m_buffer (index_j g.m_index)).isSome ∧
    (∀ v, (writeBuf g.m_buffer g.m_index v).isSome) ∧
    ∃ v g1, g.integer = some (v, g1) ∧ g1.m_buffer.length = 624 ∧
      0 ≤ g1.m_index ∧ g1.m_index < MT_LEN := by
  obtain ⟨i, hi⟩ := Int.eq_ofNat_of_zero_le h0
  have hi624 : i < 624 := by
    unfold MT_LEN at h1; omega
  have hm1 : (i + 1) % 624 < 624 := Nat.mod_lt _ (by norm_num)
  have hm2 : (i + 397) % 624 < 624 := Nat.mod_lt _ (by norm_num)
  refine ⟨?_, ?_, ?_, ?_, ?_, ?_, ?_, ?_⟩
  · obtain ⟨g0, hg0, hlen0, hidx0⟩ := constructor_spec raw seed hraw
    exact ⟨g0, hg0, hlen0, by rw [hidx0], by rw [hidx0]; decide⟩
  · rw [hi, index_i2_eq i hi624]
    unfold MT_LEN; omega
  · rw [hi, index_j_eq i hi624]
    unfold MT_LEN; omega
  · rw [hi, readBuf_eq _ i hlen hi624]; rfl
  · rw [hi, index_i2_eq i hi624, readBuf_eq _ _ hlen hm1]; rfl
  · rw [hi, index_j_eq i hi624, readBuf_eq _ _ hlen hm2]; rfl
  · intro v
    have : (0 : Int) ≤ g.m_index ∧ g.m_index < MT_LEN ∧ g.m_index.toNat < g.m_buffer.length := by
      refine ⟨h0, h1, ?_⟩
      rw [hi]; simp; omega
    unfold writeBuf
    rw [if_pos this]; rfl
  · refine ⟨_, _, integer_eq g i hlen hi hi624, by simpa using hlen, ?_, ?_⟩
    · exact Int.ofNat_nonneg _
    · show (((i + 1) % 624 : Nat) : Int) < MT_LEN
      unfold MT_LEN; omega

/-- Witness of C9: seed 2, and the state with all words equal to 5 and cursor 623. -/
theorem C9_witness :
    (List.replicate 624 0).length = 624 ∧ (0 : Int) ≤ 623 ∧ (623 : Int) < MT_LEN ∧
      (∃ g0, MersenneTwister.MersenneTwister (List.replicate 624 0) 2 = some g0 ∧
        g0.m_buffer.length = 624 ∧ 0 ≤ g0.m_index ∧ g0.m_index < MT_LEN) ∧
      ∃ v g1, MersenneTwister.integer ⟨List.replicate 624 5, 623⟩ = some (v, g1) ∧
        g1.m_buffer.length = 624 ∧ 0 ≤ g1.m_index ∧ g1.m_index < MT_LEN := by
  have h := C9_cursor_invariant (List.replicate 624 0) 2 ⟨List.replicate 624 5, 623⟩
    (List.length_replicate 624 0) (List.length_replicate 624 5) (by decide) (by decide)
  exact ⟨List.length_replicate 624 0, by decide, by decide, h.1, h.2.2.2.2.2.2.2⟩

/-- C10: the tempering applied by `integer()` is a bijection on 32-bit words: it maps
32-bit words to 32-bit words, `swizzle r = swizzle r2` forces `r = r2`, and every
32-bit word is the tempering of one; so when two calls of `integer()` return the same
value, the words they have just stored in the buffer are the same. -/
theorem C10_tempering_is_bijective (r r2 : Nat) (hr : r < 2 ^ 32) (hr2 : r2 < 2 ^ 32)
    (g h : MersenneTwister) (i k : Nat)
    (hglen : g.m_buffer.length = 624) (hgw : ∀ w ∈ g.m_buffer, w < 2 ^ 32)
    (hgi : g.m_index = (i : Int)) (hi : i < 624)
    (hhlen : h.m_buffer.length = 624) (hhw : ∀ w ∈ h.m_buffer, w < 2 ^ 32)
    (hhk : h.m_index = (k : Int)) (hk : k < 624) :
    swizzle r < 2 ^ 32 ∧
    (swizzle r = swizzle r2 → r = r2) ∧
    (∃ x, x < 2 ^ 32 ∧ swizzle x = r) ∧
    ∃ vg g1 vh h1, g.integer = some (vg, g1) ∧ h.integer = some (vh, h1) ∧
      (vg = vh → g1.m_buffer[i]? = h1.m_buffer[k]?) := by
  refine ⟨swizzle_lt r, swizzle_injective hr hr2, swizzle_surjective r hr, ?_⟩
  refine ⟨_, _, _, _, integer_eq g i hglen hgi hi, integer_eq h k hhlen hhk hk, ?_⟩
  intro hv
  have hw := swizzle_injective (twistedWord_lt g.m_buffer hgw i)
    (twistedWord_lt h.m_buffer hhw k) hv
  rw [List.getElem?_set, if_pos rfl, if_pos (by omega), List.getElem?_set, if_pos rfl,
    if_pos (by omega), hw]

/-- Witness of C10: the words 1 and 2, and the state with all words equal to 5 at the
cursors 0 and 1. -/
theorem C10_witness :
    (1 : Nat) < 2 ^ 32 ∧ (2 : Nat) < 2 ^ 32 ∧ (swizzle 1 = swizzle 2 → (1 : Nat) = 2) ∧
      ∃ x, x < 2 ^ 32 ∧ swizzle x = 1 := by
  have hw : ∀ w ∈ List.replicate 624 5, w < 2 ^ 32 := fun w hw => by
    rw [List.eq_of_mem_replicate hw]; norm_num
  have h := C10_tempering_is_bijective 1 2 (by norm_num) (by norm_num)
    ⟨List.replicate 624 5, 0⟩ ⟨List.replicate 624 5, 1⟩ 0 1
    (List.length_replicate 624 5) hw rfl (by norm_num)
    (List.length_replicate 624 5) hw rfl (by norm_num)
  exact ⟨by norm_num, by norm_num, h.2.1, h.2.2.1⟩

/-! ## The claims about the coordinator loop -/

/-- C4: in every iteration that the loop of `main` reaches (`h` is the state at its
head, after the trials `pre`), step 4 on the result cells `r1` and `r2` is defined
and leaves the detection counter at `d + 1` if `r1 = 0` and `r2 = 0`, and at `d`
otherwise, `d` being the counter before the step: the counter does not decrease and
grows by at most one, and the rest of the iteration does not touch it. -/
theorem C4_detection_counter_step (pre : List (Int × Int)) (h : MainState) (r1 r2 : Int)
    (hreach : mainLoop mainInit pre = some h) :
    ∃ e, mainStep4 h r1 r2 = some e ∧
      e.detected = (if r1 = 0 ∧ r2 = 0 then h.detected + 1 else h.detected) ∧
      h.detected ≤ e.detected ∧ e.detected ≤ h.detected + 1 ∧
      ∀ s1, mainIteration h (r1, r2) = some s1 → s1.detected = e.detected := by
  obtain ⟨d, m, hd, hm, hdm, hmax⟩ :=
    headInv_nat (mainLoop_inv pre mainInit h mainInit_inv hreach)
  obtain ⟨det, it, out⟩ := h
  simp only at hd hm
  subst hd hm
  have hstep := mainStep4_eq d m out (r1, r2) (by omega)
  simp only at hstep
  refine ⟨_, hstep, ?_, ?_, ?_, ?_⟩
  · by_cases ho : r1 = 0 ∧ r2 = 0
    · rw [if_pos ho, if_pos ho]; push_cast; rfl
    · rw [if_neg ho, if_neg ho]
  · by_cases ho : r1 = 0 ∧ r2 = 0
    · rw [if_pos ho]; push_cast; show (d : Int) ≤ (d : Int) + 1; omega
    · rw [if_neg ho]
  · by_cases ho : r1 = 0 ∧ r2 = 0
    · rw [if_pos ho]; push_cast; exact le_refl _
    · rw [if_neg ho]; show (d : Int) ≤ (d : Int) + 1; omega
  · intro s1 hs1
    unfold mainIteration at hs1
    simp only at hs1
    rw [hstep, Option.some_bind] at hs1
    cases hinc : incrInt (if r1 = 0 ∧ r2 = 0 then
        (⟨((d + 1 : Nat) : Int), (m : Int), out ++ [specLine (d + 1) m ++ "\n"]⟩ : MainState)
        else ⟨(d : Int), (m : Int), out⟩).iterations with
    | none => rw [hinc] at hs1; exact absurd hs1 (by simp)
    | some it2 =>
      rw [hinc, Option.map_some'] at hs1
      rw [← Option.some.inj hs1]

/-- Witness of C4: the third trial, after a detection and a trial without one. -/
theorem C4_witness :
    mainLoop mainInit [(0, 0), (1, 0)] =
        some ⟨1, 3, ["1 reorders detected after 1 iterations\n"]⟩ ∧
      ∃ e, mainStep4 ⟨1, 3, ["1 reorders detected after 1 iterations\n"]⟩ 0 0 = some e ∧
        e.detected = 2 := by
  obtain ⟨e, h1, h2, _⟩ := C4_detection_counter_step [(0, 0), (1, 0)]
    ⟨1, 3, ["1 reorders detected after 1 iterations\n"]⟩ 0 0 (by decide)
  exact ⟨by decide, e, h1, by simpa using h2⟩

/-- C5, counterexample: after 2147483647 trials without a detection, a trial with
`r1 = 0` and `r2 = 0` would have to be reported with `M = 2147483648`; the `int`
counter `iterations` cannot hold that index, and the output is not the one claimed. -/
theorem C5_counterexample :
    mainOutput (List.replicate 2147483647 ((1 : Int), (1 : Int)) ++ [((0 : Int), (0 : Int))]) ≠
      some (specOutputFrom 1 1
        (List.replicate 2147483647 ((1 : Int), (1 : Int)) ++ [((0 : Int), (0 : Int))])) := by
  unfold mainOutput
  rw [List.getLast?_concat, List.dropLast_concat]
  simp only [mainLoop_overflow, Option.none_bind, Option.map_none']
  exact fun h => Option.noConfusion h

/-- C5, amended: for every sequence of at most 2147483647 trial outcomes the output
is one line per trial with `r1 = 0` and `r2 = 0`, in trial order, the `k`-th line
being "N reorders detected after M iterations" with `N = k` and `M` the 1-based
position of the trial; the positions `M` increase strictly from line to line. -/
theorem C5_output_lines (trials : List (Int × Int)) (hlen : trials.length ≤ 2147483647) :
    mainOutput trials = some (specOutputFrom 1 1 trials) ∧
      specOutputFrom 1 1 trials =
        ((detectionsFrom 1 trials).enumFrom 1).map (fun q => specLine q.1 q.2 ++ "\n") ∧
      detectionsFrom 1 trials =
        ((trials.enumFrom 1).filter fun p => p.2.1 = 0 ∧ p.2.2 = 0).map Prod.fst ∧
      (detectionsFrom 1 trials).Pairwise (fun a b => a < b) := by
  refine ⟨?_, rfl, rfl, ?_⟩
  · rcases List.eq_nil_or_concat trials with hnil | ⟨pre, o, hcons⟩
    · subst hnil
      rfl
    · rw [List.concat_eq_append] at hcons
      subst hcons
      rw [List.length_append, List.length_singleton] at hlen
      have hcount := detectionCount_le pre
      unfold mainOutput
      rw [List.getLast?_concat, List.dropLast_concat]
      simp only
      rw [mainLoop_init pre hlen, Option.some_bind, mainStep4_eq _ _ _ o (by omega),
        Option.map_some', specOutputFrom_concat]
      by_cases ho : o.1 = 0 ∧ o.2 = 0
      · rw [if_pos ho, if_pos ho]
        simp only [Nat.add_comm]
      · rw [if_neg ho, if_neg ho, List.append_nil]
  · unfold detectionsFrom
    have hsub : (((trials.enumFrom 1).filter fun p => p.2.1 = 0 ∧ p.2.2 = 0).map Prod.fst).Sublist
        ((trials.enumFrom 1).map Prod.fst) := List.Sublist.map _ (List.filter_sublist _)
    rw [List.enumFrom_map_fst] at hsub
    exact List.Pairwise.sublist hsub (List.pairwise_lt_range' 1 trials.length)

/-- Witness of C5: three trials, the first and the third with a detection. -/
theorem C5_witness :
    ([((0 : Int), (0 : Int)), (1, 0), (0, 0)].length ≤ 2147483647) ∧
      mainOutput [(0, 0), (1, 0), (0, 0)] =
        some ["1 reorders detected after 1 iterations\n",
          "2 reorders detected after 3 iterations\n"] := by
  have h := (C5_output_lines [(0, 0), (1, 0), (0, 0)] (by decide)).1
  exact ⟨by decide, h.trans (by decide)⟩

/-- C6, counterexample: there is no 2147483648-th iteration holding the trial index
2147483648: the increment of `iterations` out of trial 2147483647 overflows the
32-bit `int`. -/
theorem C6_counterexample :
    ¬ ∃ h, mainLoop mainInit (List.replicate 2147483647 ((1 : Int), (1 : Int))) = some h ∧
      h.iterations = 2147483648 := by
  rintro ⟨h, hrun, _⟩
  rw [mainLoop_overflow] at hrun
  exact Option.noConfusion hrun

/-- C6, amended: for every `k` with `1 <= k <= 2147483647` the loop of `main` reaches
its `k`-th iteration, whatever the outcomes of the `k - 1` trials before it, and
holds the trial index `k` there: the index starts at 1 and grows by one per trial. -/
theorem C6_trial_index (k : Nat) (pre : List (Int × Int)) (hk1 : 1 ≤ k)
    (hk : k ≤ 2147483647) (hpre : pre.length + 1 = k) :
    ∃ h, mainLoop mainInit pre = some h ∧ h.iterations = (k : Int) ∧
      (k = 1 → h = mainInit) ∧
      ∀ o s1, mainIteration h o = some s1 → s1.iterations = h.iterations + 1 := by
  subst hpre
  refine ⟨_, mainLoop_init pre hk, ?_, ?_, ?_⟩
  · show ((1 + pre.length : Nat) : Int) = ((pre.length + 1 : Nat) : Int)
    rw [Nat.add_comm]
  · intro h1
    have hnil : pre = [] := List.eq_nil_of_length_eq_zero (by omega)
    subst hnil
    rfl
  · intro o s1 hs1
    have hcount := detectionCount_le pre
    by_cases hm : 1 + pre.length < 2147483647
    · rw [mainIteration_eq _ _ _ o (by omega) hm] at hs1
      rw [← Option.some.inj hs1]
      by_cases ho : o.1 = 0 ∧ o.2 = 0
      · rw [if_pos ho]; push_cast; rfl
      · rw [if_neg ho]; push_cast; rfl
    · exfalso
      unfold mainIteration at hs1
      rw [mainStep4_eq _ _ _ o (by omega), Option.some_bind] at hs1
      have hmax : 1 + pre.length = 2147483647 := by omega
      by_cases ho : o.1 = 0 ∧ o.2 = 0
      · rw [if_pos ho] at hs1
        dsimp only at hs1
        rw [hmax, show ((2147483647 : Nat) : Int) = 2147483647 from rfl, incrInt_max] at hs1
        exact Option.noConfusion hs1
      · rw [if_neg ho] at hs1
        dsimp only at hs1
        rw [hmax, show ((2147483647 : Nat) : Int) = 2147483647 from rfl, incrInt_max] at hs1
        exact Option.noConfusion hs1

/-- Witness of C6: the third iteration. -/
theorem C6_witness :
    (1 : Nat) ≤ 3 ∧ (3 : Nat) ≤ 2147483647 ∧
      ∃ h, mainLoop mainInit [(0, 0), (1, 0)] = some h ∧ h.iterations = 3 := by
  obtain ⟨h, h1, h2, _⟩ := C6_trial_index 3 [(0, 0), (1, 0)] (by decide) (by decide) rfl
  exact ⟨by decide, by decide, h, h1, h2⟩

/-! ## Facts about the rendezvous -/

